import Mathlib

/-!
Shallow embedding of the core of `snl.hpp` (Simple Networking Library):
the length-prefixed framing codec (`snl::detail::recv`, `snl::connection::send`),
the non-blocking receive (`snl::connection::try_recv`), the message iterator
(`snl::connection::connection_iterator`), the handler-boundary error policy of
`snl::serve` / `snl::connect`, and the command grammar
(`snl::parsing::message_parser::parse`).

Bytes are modelled as `Nat` values below 256.  The platform is the one the
source targets (POSIX, x86-64): `int` is a 32-bit little-endian signed
integer, which is the representation `send`/`recv` use for the length prefix.
-/

namespace snl

/-- The C++ exceptions that can cross the operations modelled here.
`connClosed` is `connection_closed_exception`, `connUnknown` is
`unknown_connection_exception` (both derive `connection_exception`);
`lengthError` is `std::length_error` (raised by `std::string::resize` on a
size above `max_size()`, e.g. a negative `int` converted to `size_t`);
`other` stands for any further exception type. -/
inductive CppExc
  | connClosed
  | connUnknown
  | lengthError
  | other
  deriving DecidableEq, Repr

/-- Whether a `catch (const connection_exception&)` clause catches the
exception: exactly the two classes deriving `connection_exception`. -/
def isConnectionException : CppExc → Bool
  | .connClosed => true
  | .connUnknown => true
  | .lengthError => false
  | .other => false

/-- One scheduled response of the OS to a `::recv` call on the socket:
`deliver cap` makes the call return up to `cap` of the currently pending
bytes (capped by the requested count), `closed` makes it return `0`
(orderly peer shutdown), `oserr` makes it return `-1`. -/
inductive ROp
  | deliver (cap : Nat)
  | closed
  | oserr

/-- The read side of a socket: the bytes still in flight toward the reader,
a schedule assigning each successive `::recv` call its OS response, and the
index of the next call. -/
structure Stream where
  pending : List Nat
  sched : Nat → ROp
  idx : Nat

/-- Result of one `::recv` call: `bytes bs` is a return value of
`bs.length` (so `bytes []` is the `0` return of an orderly shutdown),
`err` is a `-1` return. -/
inductive RecvRes
  | bytes (bs : List Nat)
  | err

/-- One `::recv(fd, buf, req, 0)` call against the modelled stream. -/
def osRecv (st : Stream) (req : Nat) : RecvRes × Stream :=
  match st.sched st.idx with
  | .closed => (.bytes [], ⟨st.pending, st.sched, st.idx + 1⟩)
  | .oserr => (.err, ⟨st.pending, st.sched, st.idx + 1⟩)
  | .deliver cap =>
      let k := min (min cap req) st.pending.length
      (.bytes (st.pending.take k), ⟨st.pending.drop k, st.sched, st.idx + 1⟩)

/-- The value of the C++ `int` whose four bytes (in memory order,
little-endian) are `bs`: two's complement, 32 bits. -/
def int32OfBytesLE (bs : List Nat) : Int :=
  let u : Nat := bs.foldr (fun b acc => b + 256 * acc) 0
  if u < 2 ^ 31 then (u : Int) else (u : Int) - 2 ^ 32

/-- The four bytes (little-endian memory order) of the C++ `int` holding
the value `n` (for `0 ≤ n < 2^31`, as `connection::send` stores
`data.size()` into an `int`). -/
def bytesOfInt32LE (n : Nat) : List Nat :=
  [n % 256, n / 256 % 256, n / 256 ^ 2 % 256, n / 256 ^ 3 % 256]

namespace detail

/-- The payload loop of `snl::detail::recv`: while `remaining > 0`, one
`::recv` of `min CHUNK_SIZE remaining` bytes; a `0` return throws
`connection_closed_exception`, a `-1` return throws
`unknown_connection_exception`, and otherwise the received chunk is
appended and `remaining` decreases by its size. -/
def recvLoop (st : Stream) (remaining : Nat) (acc : List Nat) :
    Except CppExc (List Nat × Stream) :=
  if h : remaining = 0 then .ok (acc, st)
  else
    match osRecv st (min 1024 remaining) with
    | (.err, _) => .error .connUnknown
    | (.bytes bs, st2) =>
        if hb : bs.length = 0 then .error .connClosed
        else recvLoop st2 (remaining - bs.length) (acc ++ bs)
termination_by remaining
decreasing_by omega

/-- `snl::detail::recv(fd)`: one `::recv` of the 4-byte length prefix
(`ret == 0` throws `connection_closed_exception`, `ret != 4` throws
`unknown_connection_exception`), then `string.resize(remaining)` (which
throws `std::length_error` when `remaining` is negative), then the payload
loop. -/
def recv (st : Stream) : Except CppExc (List Nat × Stream) :=
  match osRecv st 4 with
  | (.err, _) => .error .connUnknown
  | (.bytes bs, st2) =>
      if bs.length = 0 then .error .connClosed
      else if bs.length ≠ 4 then .error .connUnknown
      else
        let remaining := int32OfBytesLE bs
        if remaining < 0 then .error .lengthError
        else recvLoop st2 remaining.toNat []

end detail

namespace connection

/-- The byte sequence `snl::connection::send(data)` writes to the socket
when every `::send` call succeeds in full: the 4-byte `int` length prefix
(`int remaining = data.size()`), then the payload verbatim. -/
def send (payload : List Nat) : List Nat :=
  bytesOfInt32LE payload.length ++ payload

/-- Outcome of the `select` call inside `snl::connection::try_recv` with its
zero-initialized `timeval` timeout: `err` is a `-1` return, `timeout` a `0`
return, `readyTrue` a positive return with `FD_ISSET(fd, &rfd)` true, and
`readyFalse` a positive return with `FD_ISSET(fd, &rfd)` false. -/
inductive SelectOutcome
  | err
  | timeout
  | readyTrue
  | readyFalse
  deriving DecidableEq, Repr

/-- `snl::connection::try_recv()`: dispatches on the `select` outcome;
`-1` throws `unknown_connection_exception`, `0` returns an empty optional,
a ready descriptor runs the full blocking `recv()` (whose exceptions
propagate), and a positive return without `FD_ISSET` returns an empty
optional. -/
def try_recv (sel : SelectOutcome) (st : Stream) :
    Except CppExc (Option (List Nat) × Stream) :=
  match sel with
  | .err => .error .connUnknown
  | .timeout => .ok (none, st)
  | .readyTrue =>
      match detail.recv st with
      | .error e => .error e
      | .ok (v, st2) => .ok (some v, st2)
  | .readyFalse => .ok (none, st)

/-- State of a `snl::connection::connection_iterator`: the stored
`current_value` and the stream behind its `fd`. -/
structure connection_iterator where
  current_value : List Nat
  st : Stream

/-- `connection_iterator::operator==(connection_iterator_end_t)`: always
`false` — the iterator cannot reach an end. -/
def connection_iterator.eqEnd (_ : connection_iterator) : Bool :=
  false

/-- `connection_iterator::operator++`: one call of `detail::recv(fd)` whose
result becomes `current_value`; its exceptions propagate to the caller. -/
def connection_iterator.inc (it : connection_iterator) :
    Except CppExc connection_iterator :=
  match detail.recv it.st with
  | .error e => .error e
  | .ok (v, st2) => .ok ⟨v, st2⟩

end connection

/-- Result of one per-connection unit of `serve` (or of `connect`'s single
handler invocation): whether `close(fd)` was reached, and which exception
(if any) escaped the unit. -/
structure UnitResult where
  handleClosed : Bool
  escaped : Option CppExc
  deriving DecidableEq, Repr

/-- The thread body `serve` spawns per accepted connection:
`try { handler(conn); } catch (const connection_exception&) {} close(fd);`.
A `connection_exception` is swallowed and `close` runs; any other exception
propagates out of the `try` block before `close` is reached. -/
def serveConnectionUnit (outcome : Except CppExc Unit) : UnitResult :=
  match outcome with
  | .ok _ => ⟨true, none⟩
  | .error e =>
      if isConnectionException e then ⟨true, none⟩ else ⟨false, some e⟩

/-- The single synchronous handler invocation in `connect`:
`try { handler(conn); } catch (const connection_exception&) {} close(sockfd);`
— the same boundary as `serveConnectionUnit`. -/
def connectInvocation (outcome : Except CppExc Unit) : UnitResult :=
  match outcome with
  | .ok _ => ⟨true, none⟩
  | .error e =>
      if isConnectionException e then ⟨true, none⟩ else ⟨false, some e⟩

end snl

namespace snl.parsing

/-- Whitespace in the default locale's `isspace`, which is what
`std::stringstream`'s `operator>>` skips between tokens. -/
def isWS (c : Char) : Bool :=
  c = ' ' || c = '\t' || c = '\n' || c = '\x0b' || c = '\x0c' || c = '\r'

/-- One `ss >> str` extraction from the remaining input `s`: skip
whitespace; at end of input the extraction fails (`none`); otherwise the
token is the maximal run of non-whitespace characters, and the rest of the
input follows it.  (The first character after the skip is non-whitespace,
so the token is never empty.) -/
def extract (s : List Char) : Option (List Char × List Char) :=
  match s.dropWhile (fun c => isWS c) with
  | [] => none
  | c :: cs =>
      some (c :: cs.takeWhile (fun c2 => !isWS c2), cs.dropWhile (fun c2 => !isWS c2))

/-- A registered command: its ordered positional parameter names
(`snl::parsing::detail::command::parameters`) and its handler.  The handler
result type is abstract; `parse` returns the handler's value on success. -/
structure command (α : Type) where
  parameters : List (List Char)
  handler : List (List Char) → α

/-- `snl::parsing::detail::get_map_keys`: the list of registered command
names. -/
def get_map_keys {α : Type} (cmds : List (List Char × command α)) :
    List (List Char) :=
  cmds.map Prod.fst

/-- `commands.contains(str)` / `commands.at(str)` on the name→command map
(keys are unique: the builder asserts `inserted == true`). -/
def lookupCmd {α : Type} (name : List Char) :
    List (List Char × command α) → Option (command α)
  | [] => none
  | (k, c) :: rest => if k = name then some c else lookupCmd name rest

/-- The content of the `parsing_exception` messages thrown by `parse`:
`unknownCommand` carries the registered names formatted into
`"expected command: ..."`, `missingParameter` the parameter name of
`"expected parameter: ..."`, `extraneousParameter` the surplus token of
`"extraneous parameter: ..."`. -/
inductive ParseFail
  | unknownCommand (names : List (List Char))
  | missingParameter (name : List Char)
  | extraneousParameter (tok : List Char)
  deriving DecidableEq, Repr

/-- The parameter loop of `parse`: for each declared parameter in order,
one extraction; a failed extraction throws `expected parameter: <name>`;
otherwise the token is appended to `args`. -/
def parseParams (ps : List (List Char)) (s : List Char)
    (args : List (List Char)) :
    Except ParseFail (List (List Char) × List Char) :=
  match ps with
  | [] => .ok (args, s)
  | p :: rest =>
      match extract s with
      | none => .error (.missingParameter p)
      | some (tok, s2) => parseParams rest s2 (args ++ [tok])

/-- `snl::parsing::message_parser::parse(msg)`: extract the first token and
look it up among the registered commands (failure on either throws
`expected command` with every registered name); consume one token per
declared parameter (`expected parameter` on a missing one); a further
extractable token throws `extraneous parameter`; otherwise the command's
handler is invoked on the collected arguments. -/
def parse {α : Type} (cmds : List (List Char × command α)) (msg : List Char) :
    Except ParseFail α :=
  match extract msg with
  | none => .error (.unknownCommand (get_map_keys cmds))
  | some (tok, s1) =>
      match lookupCmd tok cmds with
      | none => .error (.unknownCommand (get_map_keys cmds))
      | some cmd =>
          match parseParams cmd.parameters s1 [] with
          | .error e => .error e
          | .ok (args, s2) =>
              match extract s2 with
              | some (tok2, _) => .error (.extraneousParameter tok2)
              | none => .ok (cmd.handler args)

/-- The token sequence `parse` consumes: repeated extraction to the end of
the input. -/
def tokenize (s : List Char) : List (List Char) :=
  match h : extract s with
  | none => []
  | some (t, r) => t :: tokenize r
termination_by s.length
decreasing_by
  unfold extract at h
  rcases hd : s.dropWhile (fun c => isWS c) with _ | ⟨c, cs⟩ <;> rw [hd] at h
  · exact absurd h (by simp)
  · simp only [Option.some.injEq, Prod.mk.injEq] at h
    obtain ⟨ht, hr⟩ := h
    have h1 : cs.length < s.length := by
      have h2 := (List.dropWhile_suffix (l := s) (fun c => isWS c)).length_le
      rw [hd] at h2
      simp at h2
      omega
    have h3 := (List.dropWhile_suffix (l := cs) (fun c2 => !isWS c2)).length_le
    rw [← hr]
    omega

end snl.parsing

namespace snl

theorem int32OfBytesLE_bytesOfInt32LE {n : Nat} (h : n < 2 ^ 31) :
    int32OfBytesLE (bytesOfInt32LE n) = (n : Int) := by
  unfold int32OfBytesLE bytesOfInt32LE
  simp only [List.foldr]
  have hu : n % 256 + 256 * (n / 256 % 256 + 256 * (n / 256 ^ 2 % 256 +
      256 * (n / 256 ^ 3 % 256 + 256 * 0))) = n := by
    omega
  rw [hu]
  rw [if_pos (show n < 2 ^ 31 by omega)]

theorem length_bytesOfInt32LE (n : Nat) : (bytesOfInt32LE n).length = 4 := rfl

/-- One-step unfolding of the payload loop (the well-founded definition
does not reduce definitionally). -/
theorem recvLoop_eq (st : Stream) (remaining : Nat) (acc : List Nat) :
    detail.recvLoop st remaining acc =
      if remaining = 0 then .ok (acc, st)
      else
        match osRecv st (min 1024 remaining) with
        | (.err, _) => .error .connUnknown
        | (.bytes bs, st2) =>
            if bs.length = 0 then .error .connClosed
            else detail.recvLoop st2 (remaining - bs.length) (acc ++ bs) := by
  rw [detail.recvLoop]
  by_cases h0 : remaining = 0
  · simp [h0]
  · rw [dif_neg h0, if_neg h0]
    rcases osRecv st (min 1024 remaining) with ⟨r, st2⟩
    cases r with
    | err => rfl
    | bytes bs =>
        simp only
        by_cases hb : bs.length = 0
        · rw [dif_pos hb, if_pos hb]
        · rw [dif_neg hb, if_neg hb]

/-- With a schedule that always delivers up to a full chunk, the payload
loop returns `acc` extended by exactly the next `rem` pending bytes. -/
theorem recvLoop_deliver :
    ∀ (rem : Nat) (st : Stream) (acc : List Nat),
      st.sched = (fun _ => ROp.deliver 1024) →
      rem ≤ st.pending.length →
      ∃ st2, detail.recvLoop st rem acc = .ok (acc ++ st.pending.take rem, st2) := by
  intro rem
  induction rem using Nat.strong_induction_on with
  | _ rem ih =>
    intro st acc hs hlen
    rw [detail.recvLoop]
    by_cases h0 : rem = 0
    · subst h0
      simp
    · simp only [h0, dite_false]
      have hos : osRecv st (min 1024 rem) =
          (.bytes (st.pending.take (min 1024 rem)),
            ⟨st.pending.drop (min 1024 rem), st.sched, st.idx + 1⟩) := by
        unfold osRecv
        rw [hs]
        simp only
        have hk : min (min 1024 (min 1024 rem)) st.pending.length = min 1024 rem := by
          omega
        rw [hk]
      rw [hos]
      simp only
      have hbl : (st.pending.take (min 1024 rem)).length = min 1024 rem := by
        simp [List.length_take]
        omega
      have hne : ¬ (st.pending.take (min 1024 rem)).length = 0 := by
        rw [hbl]; omega
      simp only [hne, dite_false]
      have hrec := ih (rem - (st.pending.take (min 1024 rem)).length)
        (by omega)
        ⟨st.pending.drop (min 1024 rem), st.sched, st.idx + 1⟩
        (acc ++ st.pending.take (min 1024 rem))
        hs
        (by simp [List.length_drop]; omega)
      obtain ⟨st2, hst2⟩ := hrec
      refine ⟨st2, ?_⟩
      rw [hst2]
      rw [hbl]
      have htake : st.pending.take (min 1024 rem) ++
          (st.pending.drop (min 1024 rem)).take (rem - min 1024 rem) =
          st.pending.take rem := by
        rw [← List.take_add]
        congr 1
        omega
      rw [List.append_assoc, htake]

/-- C1. Framing round-trip: decoding (`snl::detail::recv`) the wire bytes
produced by encoding (`snl::connection::send`) any payload whose length is
representable in the 32-bit length field yields the payload unchanged. -/
theorem framing_roundtrip (payload : List Nat)
    (h : payload.length < 2 ^ 31) :
    ∃ st2, detail.recv ⟨connection.send payload, fun _ => ROp.deliver 1024, 0⟩ =
      .ok (payload, st2) := by
  unfold detail.recv
  have hos : osRecv ⟨connection.send payload, fun _ => ROp.deliver 1024, 0⟩ 4 =
      (.bytes (bytesOfInt32LE payload.length),
        ⟨payload, fun _ => ROp.deliver 1024, 1⟩) := by
    unfold osRecv connection.send
    simp only
    have hlen : (bytesOfInt32LE payload.length ++ payload).length =
        4 + payload.length := by
      simp [length_bytesOfInt32LE]
    have hk : min (min 1024 4) (bytesOfInt32LE payload.length ++ payload).length = 4 := by
      rw [hlen]; omega
    rw [hk, List.take_left' (length_bytesOfInt32LE payload.length),
      List.drop_left' (length_bytesOfInt32LE payload.length)]
  rw [hos]
  simp only [length_bytesOfInt32LE]
  rw [int32OfBytesLE_bytesOfInt32LE h]
  have hneg : ¬ ((payload.length : Int) < 0) := by omega
  simp only [if_neg hneg, Int.toNat_natCast]
  have := recvLoop_deliver payload.length
    ⟨payload, fun _ => ROp.deliver 1024, 1⟩ [] rfl (by simp)
  obtain ⟨st2, hst2⟩ := this
  refine ⟨st2, ?_⟩
  rw [hst2]
  simp

/-- Witness for C1 at the payload `"hello"`. -/
theorem framing_roundtrip_witness :
    ([104, 101, 108, 108, 111] : List Nat).length < 2 ^ 31 ∧
    ∃ st2, detail.recv
        ⟨connection.send [104, 101, 108, 108, 111], fun _ => ROp.deliver 1024, 0⟩ =
      .ok ([104, 101, 108, 108, 111], st2) :=
  ⟨by decide, framing_roundtrip [104, 101, 108, 108, 111] (by decide)⟩

/-- A `::recv` call never returns more bytes than requested. -/
theorem osRecv_bytes_length_le {st : Stream} {req : Nat} {bs : List Nat}
    {st2 : Stream} (h : osRecv st req = (.bytes bs, st2)) :
    bs.length ≤ req := by
  unfold osRecv at h
  split at h
  · injection h with h1 h2
    injection h1 with h1
    subst h1
    simp
  · injection h with h1 h2
    injection h1
  · injection h with h1 h2
    injection h1 with h1
    subst h1
    simp only [List.length_take]
    omega

/-- A successful payload loop appends exactly `rem` received bytes. -/
theorem recvLoop_ok_length :
    ∀ (rem : Nat) (st : Stream) (acc res : List Nat) (st2 : Stream),
      detail.recvLoop st rem acc = .ok (res, st2) →
      res.length = acc.length + rem := by
  intro rem
  induction rem using Nat.strong_induction_on with
  | _ rem ih =>
    intro st acc res st2 h
    rw [detail.recvLoop] at h
    by_cases h0 : rem = 0
    · subst h0
      simp only [dite_true] at h
      cases h
      simp
    · simp only [h0, dite_false] at h
      rcases hos : osRecv st (min 1024 rem) with ⟨r, st3⟩
      rw [hos] at h
      cases r with
      | err => simp at h
      | bytes bs =>
          simp only at h
          by_cases hb : bs.length = 0
          · rw [dif_pos hb] at h
            exact absurd h (by simp)
          · rw [dif_neg hb] at h
            have hle : bs.length ≤ min 1024 rem := osRecv_bytes_length_le hos
            have := ih (rem - bs.length) (by omega) st3 (acc ++ bs) res st2 h
            simp [List.length_append] at this
            omega

/-- Every failure of the payload loop is ConnectionClosed or
ConnectionError(unknown). -/
theorem recvLoop_error_mem :
    ∀ (rem : Nat) (st : Stream) (acc : List Nat) (e : CppExc),
      detail.recvLoop st rem acc = .error e →
      e = .connClosed ∨ e = .connUnknown := by
  intro rem
  induction rem using Nat.strong_induction_on with
  | _ rem ih =>
    intro st acc e h
    rw [detail.recvLoop] at h
    by_cases h0 : rem = 0
    · subst h0
      simp at h
    · simp only [h0, dite_false] at h
      rcases hos : osRecv st (min 1024 rem) with ⟨r, st3⟩
      rw [hos] at h
      cases r with
      | err =>
          simp only at h
          cases h
          exact Or.inr rfl
      | bytes bs =>
          simp only at h
          by_cases hb : bs.length = 0
          · rw [dif_pos hb] at h
            cases h
            exact Or.inl rfl
          · rw [dif_neg hb] at h
            exact ih (rem - bs.length) (by omega) st3 (acc ++ bs) e h

/-- C2 counterexample: the stream holds the complete wire encoding of the
two-byte payload `"ab"`, but the OS answers the prefix read with only 2 of
the 4 requested bytes (and would deliver everything afterwards).  The code
does not loop on the partial prefix read: it fails with
`unknown_connection_exception`. -/
theorem recv_partial_prefix_fatal :
    detail.recv ⟨[2, 0, 0, 0, 97, 98],
        fun i => if i = 0 then ROp.deliver 2 else ROp.deliver 1024, 0⟩ =
      .error .connUnknown := by
  rfl

/-- C2 (amended). `snl::detail::recv` reads the length prefix with a single
`::recv` call: a `0` return signals ConnectionClosed, and a short (1-3
byte) or failed (`-1`) prefix read signals ConnectionError(unknown)
without retrying; when the full 4-byte prefix arrives (non-negative), the
payload loop runs: a partial payload read is non-fatal (the loop
continues with the remainder), a `0` read signals ConnectionClosed, a `-1`
read signals ConnectionError(unknown), and a successful decode has read
exactly the decoded number of payload bytes. -/
theorem recv_read_behaviour :
    (∀ st st2, osRecv st 4 = (.err, st2) →
      detail.recv st = .error .connUnknown) ∧
    (∀ st st2, osRecv st 4 = (.bytes [], st2) →
      detail.recv st = .error .connClosed) ∧
    (∀ st bs st2, osRecv st 4 = (.bytes bs, st2) → bs ≠ [] → bs.length ≠ 4 →
      detail.recv st = .error .connUnknown) ∧
    (∀ st bs st2, osRecv st 4 = (.bytes bs, st2) → bs.length = 4 →
      0 ≤ int32OfBytesLE bs →
      detail.recv st = detail.recvLoop st2 (int32OfBytesLE bs).toNat []) ∧
    (∀ st acc, detail.recvLoop st 0 acc = .ok (acc, st)) ∧
    (∀ st rem acc st2, rem ≠ 0 → osRecv st (min 1024 rem) = (.err, st2) →
      detail.recvLoop st rem acc = .error .connUnknown) ∧
    (∀ st rem acc st2, rem ≠ 0 → osRecv st (min 1024 rem) = (.bytes [], st2) →
      detail.recvLoop st rem acc = .error .connClosed) ∧
    (∀ st rem acc bs st2, rem ≠ 0 →
      osRecv st (min 1024 rem) = (.bytes bs, st2) → bs ≠ [] →
      detail.recvLoop st rem acc = detail.recvLoop st2 (rem - bs.length) (acc ++ bs)) ∧
    (∀ st rem acc res st2, detail.recvLoop st rem acc = .ok (res, st2) →
      res.length = acc.length + rem) ∧
    (∀ st res st2, detail.recv st = .ok (res, st2) →
      ∃ bs st1, osRecv st 4 = (.bytes bs, st1) ∧ bs.length = 4 ∧
        res.length = (int32OfBytesLE bs).toNat) ∧
    (∀ st e, detail.recv st = .error e →
      e = .connClosed ∨ e = .connUnknown ∨ e = .lengthError) := by
  refine ⟨?_, ?_, ?_, ?_, ?_, ?_, ?_, ?_, ?_, ?_, ?_⟩
  · intro st st2 h
    unfold detail.recv
    rw [h]
  · intro st st2 h
    unfold detail.recv
    rw [h]
    simp
  · intro st bs st2 h hne hlen
    unfold detail.recv
    rw [h]
    have hb0 : bs.length ≠ 0 := by simpa using hne
    simp [hb0, hlen]
  · intro st bs st2 h hlen hpos
    unfold detail.recv
    rw [h]
    simp [hlen, Int.not_lt.mpr hpos]
  · intro st acc
    rw [detail.recvLoop]
    simp
  · intro st rem acc st2 h0 h
    rw [detail.recvLoop]
    simp only [h0, dite_false]
    rw [h]
  · intro st rem acc st2 h0 h
    rw [detail.recvLoop]
    simp only [h0, dite_false]
    rw [h]
    simp
  · intro st rem acc bs st2 h0 h hne
    rw [detail.recvLoop]
    simp only [h0, dite_false]
    rw [h]
    have hb0 : ¬ bs.length = 0 := by simpa using hne
    simp [hb0]
  · exact fun st rem acc res st2 h => recvLoop_ok_length rem st acc res st2 h
  · intro st res st2 h
    unfold detail.recv at h
    rcases hos : osRecv st 4 with ⟨r, st1⟩
    rw [hos] at h
    cases r with
    | err => simp at h
    | bytes bs =>
        simp only at h
        by_cases hb0 : bs.length = 0
        · rw [if_pos hb0] at h
          cases h
        · rw [if_neg hb0] at h
          by_cases hb4 : bs.length ≠ 4
          · rw [if_pos hb4] at h
            cases h
          · rw [if_neg hb4] at h
            by_cases hneg : int32OfBytesLE bs < 0
            · rw [if_pos hneg] at h
              cases h
            · rw [if_neg hneg] at h
              refine ⟨bs, st1, rfl, by omega, ?_⟩
              have := recvLoop_ok_length (int32OfBytesLE bs).toNat st1 [] res st2 h
              simpa using this
  · intro st e h
    unfold detail.recv at h
    rcases hos : osRecv st 4 with ⟨r, st1⟩
    rw [hos] at h
    cases r with
    | err =>
        simp only at h
        cases h
        exact Or.inr (Or.inl rfl)
    | bytes bs =>
        simp only at h
        by_cases hb0 : bs.length = 0
        · rw [if_pos hb0] at h
          cases h
          exact Or.inl rfl
        · rw [if_neg hb0] at h
          by_cases hb4 : bs.length ≠ 4
          · rw [if_pos hb4] at h
            cases h
            exact Or.inr (Or.inl rfl)
          · rw [if_neg hb4] at h
            by_cases hneg : int32OfBytesLE bs < 0
            · rw [if_pos hneg] at h
              cases h
              exact Or.inr (Or.inr rfl)
            · rw [if_neg hneg] at h
              rcases recvLoop_error_mem (int32OfBytesLE bs).toNat st1 [] e h with
                h2 | h2
              · exact Or.inl h2
              · exact Or.inr (Or.inl h2)

/-- Witness for C2: concrete instantiations of the prefix-closed, the
loop-error and the loop-continuation conjuncts. -/
theorem recv_read_behaviour_witness :
    detail.recv ⟨[], fun _ => ROp.closed, 0⟩ = .error .connClosed ∧
    detail.recvLoop ⟨[97], fun _ => ROp.oserr, 0⟩ 1 [] = .error .connUnknown ∧
    detail.recvLoop ⟨[97, 98], fun _ => ROp.deliver 1, 0⟩ 2 [] =
      detail.recvLoop ⟨[98], fun _ => ROp.deliver 1, 1⟩ 1 [97] :=
  ⟨recv_read_behaviour.2.1 _ _ rfl,
   recv_read_behaviour.2.2.2.2.2.1 _ 1 [] _ (by decide) rfl,
   recv_read_behaviour.2.2.2.2.2.2.2.1 _ 2 [] [97] _ (by decide) rfl (by decide)⟩

/-- C10. A negative decoded length prefix makes `snl::detail::recv` throw
`std::length_error` (from `string.resize`): it never returns a payload,
the exception is not a `connection_exception`, and the handler boundaries
of `serve` and `connect` do not swallow it (and do not reach `close`). -/
theorem recv_negative_prefix (st st2 : Stream) (bs : List Nat)
    (h : osRecv st 4 = (.bytes bs, st2)) (hlen : bs.length = 4)
    (hneg : int32OfBytesLE bs < 0) :
    detail.recv st = .error .lengthError ∧
    isConnectionException .lengthError = false ∧
    serveConnectionUnit (.error .lengthError) = ⟨false, some .lengthError⟩ ∧
    connectInvocation (.error .lengthError) = ⟨false, some .lengthError⟩ := by
  refine ⟨?_, rfl, rfl, rfl⟩
  unfold detail.recv
  rw [h]
  simp [hlen, hneg]

/-- Witness for C10 at the wire prefix `80 00 00 00` (value `-2^31`). -/
theorem recv_negative_prefix_witness :
    detail.recv ⟨[0, 0, 0, 128], fun _ => ROp.deliver 1024, 0⟩ =
      .error .lengthError ∧
    isConnectionException .lengthError = false ∧
    serveConnectionUnit (.error .lengthError) = ⟨false, some .lengthError⟩ ∧
    connectInvocation (.error .lengthError) = ⟨false, some .lengthError⟩ :=
  recv_negative_prefix ⟨[0, 0, 0, 128], fun _ => ROp.deliver 1024, 0⟩
    ⟨[], fun _ => ROp.deliver 1024, 1⟩ [0, 0, 0, 128] rfl (by decide) (by decide)

/-- C5. `snl::connection::try_recv`: a `0` return of `select` (timeout,
zero-duration poll) yields an empty optional, as does a positive return
without `FD_ISSET`; a failing readiness check (`-1`) throws
`unknown_connection_exception`; a ready descriptor runs the full blocking
`recv()`, returning its message and propagating its exceptions. -/
theorem try_recv_behaviour :
    (∀ st, connection.try_recv .timeout st = .ok (none, st)) ∧
    (∀ st, connection.try_recv .readyFalse st = .ok (none, st)) ∧
    (∀ st, connection.try_recv .err st = .error .connUnknown) ∧
    (∀ st v st2, detail.recv st = .ok (v, st2) →
      connection.try_recv .readyTrue st = .ok (some v, st2)) ∧
    (∀ st e, detail.recv st = .error e →
      connection.try_recv .readyTrue st = .error e) := by
  refine ⟨fun st => rfl, fun st => rfl, fun st => rfl, ?_, ?_⟩
  · intro st v st2 h
    unfold connection.try_recv
    rw [h]
  · intro st e h
    unfold connection.try_recv
    rw [h]

/-- Witness for C5: a ready descriptor over a stream carrying the encoded
empty message receives it; one over a closed stream propagates
ConnectionClosed. -/
theorem try_recv_behaviour_witness :
    connection.try_recv .readyTrue ⟨[0, 0, 0, 0], fun _ => ROp.deliver 1024, 0⟩ =
      .ok (some [], ⟨[], fun _ => ROp.deliver 1024, 1⟩) ∧
    connection.try_recv .readyTrue ⟨[], fun _ => ROp.closed, 0⟩ =
      .error .connClosed :=
  ⟨try_recv_behaviour.2.2.2.1 _ [] ⟨[], fun _ => ROp.deliver 1024, 1⟩
      (by simp [detail.recv, osRecv, int32OfBytesLE, recvLoop_eq]),
   try_recv_behaviour.2.2.2.2 _ .connClosed rfl⟩

/-- C6. Handler-boundary policy of `serve`'s per-connection thread and of
`connect`'s single synchronous invocation: when the handler returns
normally or throws a `connection_exception`, the exception (if any) is
swallowed and `close(fd)` runs. -/
theorem handler_boundary_policy (r : Except CppExc Unit)
    (h : r = .ok () ∨ ∃ e, r = .error e ∧ isConnectionException e = true) :
    serveConnectionUnit r = ⟨true, none⟩ ∧
    connectInvocation r = ⟨true, none⟩ := by
  rcases h with h | ⟨e, he, hce⟩
  · subst h
    exact ⟨rfl, rfl⟩
  · subst he
    exact ⟨by simp [serveConnectionUnit, hce], by simp [connectInvocation, hce]⟩

/-- Witness for C6 at a handler throwing `connection_closed_exception`. -/
theorem handler_boundary_policy_witness :
    serveConnectionUnit (.error .connClosed) = ⟨true, none⟩ ∧
    connectInvocation (.error .connClosed) = ⟨true, none⟩ :=
  handler_boundary_policy (.error .connClosed)
    (Or.inr ⟨.connClosed, rfl, rfl⟩)

/-- C7. The message iterator never terminates normally: equality with the
end sentinel is always `false`; advancing performs exactly one
`detail::recv`, storing its message; a ConnectionClosed/ConnectionError
from that receive propagates to the consumer. -/
theorem iterator_never_ends :
    (∀ it : connection.connection_iterator, it.eqEnd = false) ∧
    (∀ (it : connection.connection_iterator) (v : List Nat) (st2 : Stream),
      detail.recv it.st = .ok (v, st2) → it.inc = .ok ⟨v, st2⟩) ∧
    (∀ (it : connection.connection_iterator) (e : CppExc),
      detail.recv it.st = .error e → it.inc = .error e) := by
  refine ⟨fun it => rfl, ?_, ?_⟩
  · intro it v st2 h
    unfold connection.connection_iterator.inc
    rw [h]
  · intro it e h
    unfold connection.connection_iterator.inc
    rw [h]

/-- Witness for C7: advancing over a closed stream propagates
ConnectionClosed; over a stream carrying an encoded `"a"` it stores the
message. -/
theorem iterator_never_ends_witness :
    (connection.connection_iterator.mk [] ⟨[], fun _ => ROp.closed, 0⟩).eqEnd
      = false ∧
    (connection.connection_iterator.mk [] ⟨[], fun _ => ROp.closed, 0⟩).inc =
      .error .connClosed ∧
    (connection.connection_iterator.mk []
        ⟨[1, 0, 0, 0, 97], fun _ => ROp.deliver 1024, 0⟩).inc =
      .ok ⟨[97], ⟨[], fun _ => ROp.deliver 1024, 2⟩⟩ := by
  refine ⟨iterator_never_ends.1 _, iterator_never_ends.2.2 _ .connClosed rfl,
    iterator_never_ends.2.1 _ [97] ⟨[], fun _ => ROp.deliver 1024, 2⟩ ?_⟩
  simp [detail.recv, osRecv, int32OfBytesLE, recvLoop_eq]

end snl

namespace snl.parsing

theorem tokenize_none {s : List Char} (h : extract s = none) :
    tokenize s = [] := by
  rw [tokenize]
  split
  · rfl
  · next t r heq => rw [h] at heq; cases heq

theorem tokenize_some {s t r : List Char} (h : extract s = some (t, r)) :
    tokenize s = t :: tokenize r := by
  rw [tokenize]
  split
  · next heq => rw [h] at heq; cases heq
  · next t2 r2 heq =>
      rw [h] at heq
      cases heq
      rfl

theorem tokenize_eq_nil_iff {s : List Char} :
    tokenize s = [] ↔ extract s = none := by
  constructor
  · intro h
    rcases hx : extract s with _ | ⟨t, r⟩
    · rfl
    · rw [tokenize_some hx] at h
      cases h
  · exact tokenize_none

theorem tokenize_cons_elim {s t : List Char} {ts : List (List Char)}
    (h : tokenize s = t :: ts) :
    ∃ r, extract s = some (t, r) ∧ tokenize r = ts := by
  rcases hx : extract s with _ | ⟨t2, r⟩
  · rw [tokenize_none hx] at h
    cases h
  · rw [tokenize_some hx] at h
    cases h
    exact ⟨r, rfl, rfl⟩

/-- When the input holds fewer tokens than there are declared parameters,
the parameter loop fails naming the first unmet parameter. -/
theorem parseParams_missing :
    ∀ (ps : List (List Char)) (s : List Char) (args : List (List Char)),
      (tokenize s).length < ps.length →
      parseParams ps s args =
        .error (.missingParameter (ps.getD (tokenize s).length [])) := by
  intro ps
  induction ps with
  | nil => intro s args h; simp at h
  | cons p ps2 ih =>
      intro s args h
      rcases hx : extract s with _ | ⟨tok, s2⟩
      · rw [tokenize_none hx]
        unfold parseParams
        rw [hx]
        rfl
      · rw [tokenize_some hx] at h ⊢
        unfold parseParams
        rw [hx]
        simp only [List.length_cons] at h ⊢
        rw [List.getD_cons_succ]
        exact ih s2 (args ++ [tok]) (by omega)

/-- When the input holds at least as many tokens as there are declared
parameters, the parameter loop consumes exactly one token per parameter,
in order. -/
theorem parseParams_enough :
    ∀ (ps : List (List Char)) (s : List Char) (args : List (List Char)),
      ps.length ≤ (tokenize s).length →
      ∃ s2, parseParams ps s args =
          .ok (args ++ (tokenize s).take ps.length, s2) ∧
        tokenize s2 = (tokenize s).drop ps.length := by
  intro ps
  induction ps with
  | nil =>
      intro s args _
      exact ⟨s, by simp [parseParams], by simp⟩
  | cons p ps2 ih =>
      intro s args h
      rcases hx : extract s with _ | ⟨tok, s2⟩
      · rw [tokenize_none hx] at h
        simp at h
      · rw [tokenize_some hx] at h ⊢
        simp only [List.length_cons] at h
        unfold parseParams
        rw [hx]
        simp only
        obtain ⟨s3, hok, hdrop⟩ := ih s2 (args ++ [tok]) (by omega)
        refine ⟨s3, ?_, ?_⟩
        · rw [hok]
          simp
        · rw [hdrop]
          simp

end snl.parsing

namespace snl.parsing

/-- C3. Arity enforcement: for a registered command and an input line whose
first token is its name, `parse` fails with `expected parameter` naming the
first unmet parameter (declaration order) when fewer tokens follow than
declared parameters, fails with `extraneous parameter` naming the first
surplus token when more follow, and with exactly as many tokens invokes the
handler on the ordered token list. -/
theorem arity_enforcement {α : Type}
    (cmds : List (List Char × command α)) (name : List Char)
    (cmd : command α) (msg : List Char) (rest : List (List Char))
    (hlook : lookupCmd name cmds = some cmd)
    (htok : tokenize msg = name :: rest) :
    (rest.length < cmd.parameters.length →
      parse cmds msg =
        .error (.missingParameter (cmd.parameters.getD rest.length []))) ∧
    (cmd.parameters.length < rest.length →
      parse cmds msg =
        .error (.extraneousParameter (rest.getD cmd.parameters.length []))) ∧
    (rest.length = cmd.parameters.length →
      parse cmds msg = .ok (cmd.handler rest)) := by
  obtain ⟨s1, hx, htok1⟩ := tokenize_cons_elim htok
  refine ⟨?_, ?_, ?_⟩
  · intro hlt
    unfold parse
    rw [hx]
    simp only
    rw [hlook]
    simp only
    rw [parseParams_missing cmd.parameters s1 [] (by rw [htok1]; omega)]
    rw [htok1]
  · intro hgt
    unfold parse
    rw [hx]
    simp only
    rw [hlook]
    simp only
    obtain ⟨s2, hok, hdrop⟩ :=
      parseParams_enough cmd.parameters s1 [] (by rw [htok1]; omega)
    rw [hok]
    simp only
    rw [htok1] at hdrop
    have hcons : rest.drop cmd.parameters.length =
        rest.getD cmd.parameters.length [] :: rest.drop (cmd.parameters.length + 1) := by
      rw [List.drop_eq_getElem_cons hgt, List.getD_eq_getElem rest [] hgt]
    rw [hcons] at hdrop
    obtain ⟨r2, hx2, _⟩ := tokenize_cons_elim hdrop
    rw [hx2]
  · intro heq
    unfold parse
    rw [hx]
    simp only
    rw [hlook]
    simp only
    obtain ⟨s2, hok, hdrop⟩ :=
      parseParams_enough cmd.parameters s1 [] (by rw [htok1]; omega)
    rw [hok]
    simp only
    rw [htok1] at hdrop
    rw [← heq, List.drop_length] at hdrop
    rw [tokenize_eq_nil_iff.mp hdrop]
    rw [htok1, ← heq, List.take_length]
    simp

/-- Witness for C3: the spec scenario — `bal` with one parameter `USER`;
`"bal alice"` invokes the handler with `["alice"]`, `"bal"` misses `USER`,
`"bal alice extra"` has the surplus token `"extra"`. -/
theorem arity_enforcement_witness :
    parse [("bal".toList, ⟨["USER".toList], fun args => args⟩)]
        "bal alice".toList = .ok ["alice".toList] ∧
    parse [("bal".toList, ⟨["USER".toList], fun args => args⟩)]
        "bal".toList = .error (.missingParameter "USER".toList) ∧
    parse [("bal".toList, ⟨["USER".toList], fun args => args⟩)]
        "bal alice extra".toList = .error (.extraneousParameter "extra".toList) := by
  refine ⟨?_, ?_, ?_⟩
  · exact (arity_enforcement [("bal".toList, ⟨["USER".toList], fun args => args⟩)]
      "bal".toList ⟨["USER".toList], fun args => args⟩ "bal alice".toList
      ["alice".toList] rfl
      (by rw [tokenize_some (show extract "bal alice".toList =
          some ("bal".toList, " alice".toList) from rfl)]
          rw [tokenize_some (show extract " alice".toList =
            some ("alice".toList, "".toList) from rfl)]
          rw [tokenize_none (show extract "".toList = none from rfl)])).2.2 rfl
  · exact (arity_enforcement [("bal".toList, ⟨["USER".toList], fun args => args⟩)]
      "bal".toList ⟨["USER".toList], fun args => args⟩ "bal".toList [] rfl
      (by rw [tokenize_some (show extract "bal".toList =
          some ("bal".toList, "".toList) from rfl)]
          rw [tokenize_none (show extract "".toList = none from rfl)])).1
      (by decide)
  · exact (arity_enforcement [("bal".toList, ⟨["USER".toList], fun args => args⟩)]
      "bal".toList ⟨["USER".toList], fun args => args⟩ "bal alice extra".toList
      ["alice".toList, "extra".toList] rfl
      (by rw [tokenize_some (show extract "bal alice extra".toList =
          some ("bal".toList, " alice extra".toList) from rfl)]
          rw [tokenize_some (show extract " alice extra".toList =
            some ("alice".toList, " extra".toList) from rfl)]
          rw [tokenize_some (show extract " extra".toList =
            some ("extra".toList, "".toList) from rfl)]
          rw [tokenize_none (show extract "".toList = none from rfl)])).2.1
      (by decide)

/-- C4. Unknown-command rejection: a line with no token, or whose first
token matches no registered name, fails with `expected command` carrying
the full list of registered command names, and no handler runs (the result
is an error, not a handler value). -/
theorem unknown_command_rejection {α : Type}
    (cmds : List (List Char × command α)) (msg : List Char)
    (h : tokenize msg = [] ∨
      ∃ t rest, tokenize msg = t :: rest ∧ lookupCmd t cmds = none) :
    parse cmds msg = .error (.unknownCommand (get_map_keys cmds)) ∧
    ∀ k, k ∈ get_map_keys cmds ↔ ∃ c, (k, c) ∈ cmds := by
  constructor
  · rcases h with h | ⟨t, rest, htok, hlook⟩
    · unfold parse
      rw [tokenize_eq_nil_iff.mp h]
    · obtain ⟨r, hx, _⟩ := tokenize_cons_elim htok
      unfold parse
      rw [hx]
      simp only
      rw [hlook]
  · intro k
    unfold get_map_keys
    simp only [List.mem_map]
    constructor
    · rintro ⟨⟨k2, c⟩, hm, hk⟩
      simp only at hk
      subst hk
      exact ⟨c, hm⟩
    · rintro ⟨c, hm⟩
      exact ⟨(k, c), hm, rfl⟩

/-- Witness for C4: `"foo"` and the empty line against the `bal` parser. -/
theorem unknown_command_rejection_witness :
    parse [("bal".toList, ⟨["USER".toList], fun args => args⟩)] "foo".toList =
      .error (.unknownCommand ["bal".toList]) ∧
    parse [("bal".toList, ⟨["USER".toList], fun args => args⟩)] "".toList =
      .error (.unknownCommand ["bal".toList]) :=
  ⟨(unknown_command_rejection [("bal".toList, ⟨["USER".toList], fun args => args⟩)]
      "foo".toList
      (Or.inr ⟨"foo".toList, [],
        by rw [tokenize_some (show extract "foo".toList =
             some ("foo".toList, "".toList) from rfl)]
           rw [tokenize_none (show extract "".toList = none from rfl)],
        rfl⟩)).1,
   (unknown_command_rejection [("bal".toList, ⟨["USER".toList], fun args => args⟩)]
      "".toList
      (Or.inl (tokenize_none (show extract "".toList = none from rfl)))).1⟩

end snl.parsing

namespace snl.parsing

theorem extract_cons_ws {c : Char} (s : List Char) (hc : isWS c = true) :
    extract (c :: s) = extract s := by
  unfold extract
  rw [List.dropWhile_cons]
  simp [hc]

theorem tokenize_cons_ws {c : Char} {s : List Char} (hc : isWS c = true) :
    tokenize (c :: s) = tokenize s := by
  rcases hx : extract s with _ | ⟨t, r⟩
  · rw [tokenize_none (by rw [extract_cons_ws s hc]; exact hx), tokenize_none hx]
  · rw [tokenize_some (by rw [extract_cons_ws s hc]; exact hx), tokenize_some hx]

theorem extract_cons_nonws {a : Char} (s : List Char) (ha : isWS a = false) :
    extract (a :: s) =
      some (a :: s.takeWhile (fun x => !isWS x), s.dropWhile (fun x => !isWS x)) := by
  unfold extract
  rw [List.dropWhile_cons]
  simp [ha]

theorem takeWhile_append_wsc (p : List Char) {c : Char} (y : List Char)
    (hc : isWS c = true) :
    ((p ++ c :: y).takeWhile fun x => !isWS x) = p.takeWhile fun x => !isWS x := by
  induction p with
  | nil => simp [List.takeWhile_cons, hc]
  | cons a p2 ih =>
      simp only [List.cons_append, List.takeWhile_cons]
      cases ha : isWS a
      · simp [ih]
      · simp

theorem dropWhile_append_wsc (p : List Char) {c : Char} (y : List Char)
    (hc : isWS c = true) :
    ((p ++ c :: y).dropWhile fun x => !isWS x) =
      (p.dropWhile fun x => !isWS x) ++ c :: y := by
  induction p with
  | nil => simp [List.dropWhile_cons, hc]
  | cons a p2 ih =>
      simp only [List.cons_append, List.dropWhile_cons]
      cases ha : isWS a
      · simp [ih]
      · simp

theorem tokenize_middle_ws_aux {c d : Char} (q : List Char)
    (hc : isWS c = true) (hd : isWS d = true) :
    ∀ (n : Nat) (p : List Char), p.length ≤ n →
      tokenize (p ++ c :: d :: q) = tokenize (p ++ c :: q) := by
  intro n
  induction n with
  | zero =>
      intro p hp
      have hp0 : p = [] := List.length_eq_zero.mp (by omega)
      subst hp0
      simp only [List.nil_append]
      rw [tokenize_cons_ws hc, tokenize_cons_ws hd, tokenize_cons_ws hc]
  | succ n ih =>
      intro p hp
      cases p with
      | nil =>
          simp only [List.nil_append]
          rw [tokenize_cons_ws hc, tokenize_cons_ws hd, tokenize_cons_ws hc]
      | cons a p2 =>
          simp only [List.cons_append]
          cases ha : isWS a
          · rw [tokenize_some (extract_cons_nonws _ ha),
              tokenize_some (extract_cons_nonws _ ha)]
            rw [takeWhile_append_wsc p2 (d :: q) hc, takeWhile_append_wsc p2 q hc]
            rw [dropWhile_append_wsc p2 (d :: q) hc, dropWhile_append_wsc p2 q hc]
            have hlen : (p2.dropWhile fun x => !isWS x).length ≤ n := by
              have := (List.dropWhile_suffix (l := p2) (fun x => !isWS x)).length_le
              simp only [List.length_cons] at hp
              omega
            rw [ih _ hlen]
          · rw [tokenize_cons_ws ha, tokenize_cons_ws ha]
            exact ih p2 (by simp only [List.length_cons] at hp; omega)

theorem tokenize_trailing_ws_aux {c : Char} (hc : isWS c = true) :
    ∀ (n : Nat) (s : List Char), s.length ≤ n →
      tokenize (s ++ [c]) = tokenize s := by
  intro n
  induction n with
  | zero =>
      intro s hs
      have hs0 : s = [] := List.length_eq_zero.mp (by omega)
      subst hs0
      simp only [List.nil_append]
      rw [tokenize_cons_ws hc]
  | succ n ih =>
      intro s hs
      cases s with
      | nil =>
          simp only [List.nil_append]
          rw [tokenize_cons_ws hc]
      | cons a s2 =>
          simp only [List.cons_append]
          cases ha : isWS a
          · rw [tokenize_some (extract_cons_nonws _ ha),
              tokenize_some (extract_cons_nonws s2 ha)]
            rw [show (c :: []) = [c] from rfl] at *
            rw [show s2 ++ [c] = s2 ++ c :: [] from rfl]
            rw [takeWhile_append_wsc s2 [] hc, dropWhile_append_wsc s2 [] hc]
            have hlen : (s2.dropWhile fun x => !isWS x).length ≤ n := by
              have := (List.dropWhile_suffix (l := s2) (fun x => !isWS x)).length_le
              simp only [List.length_cons] at hs
              omega
            rw [ih _ hlen]
          · rw [tokenize_cons_ws ha, tokenize_cons_ws ha]
            exact ih s2 (by simp only [List.length_cons] at hs; omega)

theorem tokenize_join_tokens :
    ∀ (toks : List (List Char)),
      (∀ t ∈ toks, t ≠ [] ∧ ∀ ch ∈ t, isWS ch = false) →
      tokenize ((toks.map (fun t => t ++ [' '])).flatten) = toks := by
  intro toks
  induction toks with
  | nil =>
      intro _
      simp only [List.map_nil, List.flatten_nil]
      exact tokenize_none rfl
  | cons t rest ih =>
      intro hv
      obtain ⟨hne, hall⟩ := hv t (List.mem_cons_self t rest)
      rcases ht : t with _ | ⟨a, t2⟩
      · exact absurd ht hne
      subst ht
      have ha : isWS a = false := hall a (List.mem_cons_self a t2)
      simp only [List.map_cons, List.flatten_cons]
      have hshape : (a :: t2 ++ [' ']) ++ ((rest.map (fun t => t ++ [' '])).flatten) =
          a :: (t2 ++ ' ' :: ((rest.map (fun t => t ++ [' '])).flatten)) := by
        simp
      rw [hshape]
      rw [tokenize_some (extract_cons_nonws _ ha)]
      have hsp : isWS ' ' = true := rfl
      rw [takeWhile_append_wsc t2 _ hsp, dropWhile_append_wsc t2 _ hsp]
      have htw : (t2.takeWhile fun x => !isWS x) = t2 :=
        List.takeWhile_eq_self_iff.mpr
          (fun x hx => by simp [hall x (List.mem_cons_of_mem a hx)])
      have hdw : (t2.dropWhile fun x => !isWS x) = [] :=
        List.dropWhile_eq_nil_iff.mpr
          (fun x hx => by simp [hall x (List.mem_cons_of_mem a hx)])
      rw [htw, hdw]
      simp only [List.nil_append]
      rw [tokenize_cons_ws hsp]
      rw [ih (fun u hu => hv u (List.mem_cons_of_mem _ hu))]

theorem parseParams_congr :
    ∀ (ps : List (List Char)) (s1 s2 : List Char) (args : List (List Char)),
      tokenize s1 = tokenize s2 →
      (∃ e, parseParams ps s1 args = .error e ∧ parseParams ps s2 args = .error e) ∨
      (∃ a r1 r2, parseParams ps s1 args = .ok (a, r1) ∧
        parseParams ps s2 args = .ok (a, r2) ∧ tokenize r1 = tokenize r2) := by
  intro ps
  induction ps with
  | nil =>
      intro s1 s2 args h
      exact Or.inr ⟨args, s1, s2, rfl, rfl, h⟩
  | cons p ps2 ih =>
      intro s1 s2 args h
      rcases hx1 : extract s1 with _ | ⟨t1, r1⟩
      · have h2 : extract s2 = none :=
          tokenize_eq_nil_iff.mp (by rw [← h]; exact tokenize_none hx1)
        refine Or.inl ⟨.missingParameter p, ?_, ?_⟩
        · unfold parseParams; rw [hx1]
        · unfold parseParams; rw [h2]
      · have ht1 : tokenize s1 = t1 :: tokenize r1 := tokenize_some hx1
        obtain ⟨r2, hx2, hr2⟩ :=
          tokenize_cons_elim (show tokenize s2 = t1 :: tokenize r1 by rw [← h, ht1])
        rcases ih r1 r2 (args ++ [t1]) hr2.symm with ⟨e, he1, he2⟩ |
          ⟨a, u1, u2, ho1, ho2, hu⟩
        · refine Or.inl ⟨e, ?_, ?_⟩
          · unfold parseParams; rw [hx1]; simp only; exact he1
          · unfold parseParams; rw [hx2]; simp only; exact he2
        · refine Or.inr ⟨a, u1, u2, ?_, ?_, hu⟩
          · unfold parseParams; rw [hx1]; simp only; exact ho1
          · unfold parseParams; rw [hx2]; simp only; exact ho2

theorem parse_congr {α : Type} (cmds : List (List Char × command α))
    (msg1 msg2 : List Char) (h : tokenize msg1 = tokenize msg2) :
    parse cmds msg1 = parse cmds msg2 := by
  rcases hx1 : extract msg1 with _ | ⟨t, r1⟩
  · have h2 : extract msg2 = none :=
      tokenize_eq_nil_iff.mp (by rw [← h]; exact tokenize_none hx1)
    unfold parse
    rw [hx1, h2]
  · have ht1 := tokenize_some hx1
    obtain ⟨r2, hx2, hr2⟩ :=
      tokenize_cons_elim (show tokenize msg2 = t :: tokenize r1 by rw [← h, ht1])
    unfold parse
    rw [hx1, hx2]
    simp only
    cases hl : lookupCmd t cmds with
    | none => rfl
    | some cmd =>
        simp only
        rcases parseParams_congr cmd.parameters r1 r2 [] hr2.symm with
          ⟨e, he1, he2⟩ | ⟨a, u1, u2, ho1, ho2, hu⟩
        · rw [he1, he2]
        · rw [ho1, ho2]
          simp only
          rcases hx3 : extract u1 with _ | ⟨t2, v1⟩
          · have h4 : extract u2 = none :=
              tokenize_eq_nil_iff.mp (by rw [← hu]; exact tokenize_none hx3)
            rw [h4]
          · obtain ⟨v2, hx4, _⟩ := tokenize_cons_elim
              (show tokenize u2 = t2 :: tokenize v1 by rw [← hu, tokenize_some hx3])
            rw [hx4]

/-- C8. Tokenization: `parse` splits its line on whitespace — leading
whitespace is ignored, trailing whitespace is ignored, runs of whitespace
collapse, and a line of non-empty whitespace-free tokens joined by spaces
tokenizes to exactly those tokens — and consequently two lines with the
same token sequence produce the identical parse outcome. -/
theorem tokenization_determines_parse :
    (∀ (c : Char) (s : List Char), isWS c = true →
      tokenize (c :: s) = tokenize s) ∧
    (∀ (s : List Char) (c : Char), isWS c = true →
      tokenize (s ++ [c]) = tokenize s) ∧
    (∀ (p q : List Char) (c d : Char), isWS c = true → isWS d = true →
      tokenize (p ++ c :: d :: q) = tokenize (p ++ c :: q)) ∧
    (∀ toks : List (List Char),
      (∀ t ∈ toks, t ≠ [] ∧ ∀ ch ∈ t, isWS ch = false) →
      tokenize ((toks.map (fun t => t ++ [' '])).flatten) = toks) ∧
    (∀ (α : Type) (cmds : List (List Char × command α)) (msg1 msg2 : List Char),
      tokenize msg1 = tokenize msg2 → parse cmds msg1 = parse cmds msg2) :=
  ⟨fun c s hc => tokenize_cons_ws hc,
   fun s c hc => tokenize_trailing_ws_aux hc s.length s le_rfl,
   fun p q c d hc hd => tokenize_middle_ws_aux q hc hd p.length p le_rfl,
   tokenize_join_tokens,
   fun α cmds msg1 msg2 h => parse_congr cmds msg1 msg2 h⟩

/-- Witness for C8: leading whitespace on `" x"`, and the lines
`"  bal   alice "` and `"bal alice"` parse identically. -/
theorem tokenization_determines_parse_witness :
    tokenize (' ' :: "x".toList) = tokenize "x".toList ∧
    parse [("bal".toList, ⟨["USER".toList], fun args => args⟩)]
        "  bal   alice ".toList =
      parse [("bal".toList, ⟨["USER".toList], fun args => args⟩)]
        "bal alice".toList :=
  ⟨tokenization_determines_parse.1 ' ' "x".toList rfl,
   tokenization_determines_parse.2.2.2.2 (List (List Char))
     [("bal".toList, ⟨["USER".toList], fun args => args⟩)]
     "  bal   alice ".toList "bal alice".toList
     (by
        rw [tokenize_some (show extract "  bal   alice ".toList =
          some ("bal".toList, "   alice ".toList) from rfl)]
        rw [tokenize_some (show extract "   alice ".toList =
          some ("alice".toList, " ".toList) from rfl)]
        rw [tokenize_none (show extract " ".toList = none from rfl)]
        rw [tokenize_some (show extract "bal alice".toList =
          some ("bal".toList, " alice".toList) from rfl)]
        rw [tokenize_some (show extract " alice".toList =
          some ("alice".toList, "".toList) from rfl)]
        rw [tokenize_none (show extract "".toList = none from rfl)])⟩

end snl.parsing
